import Mathlib

/-!
Verification of the invoice persistence and query layer of
`invoice_manager.py` (class `InvoiceDB` and the CSV export helper).

The embedding below translates the SQLite-backed operations into pure
Lean functions over an explicit database state.  SQLite-level behavior
that the code relies on (the `UNIQUE` column constraint, rowid
assignment, the `LIKE` operator, the `date()` builtin, `ORDER BY`) is
modelled per SQLite's documented semantics, restricted to the shapes of
data this program produces.
-/

namespace InvoiceApp

/-- One row of the `invoices` table
(`id INTEGER PRIMARY KEY, invoice_no TEXT UNIQUE, date TEXT, type TEXT,
customer TEXT, items TEXT, total REAL, notes TEXT`).
`REAL` totals are modelled as rationals; the store treats them opaquely. -/
structure Invoice where
  id : Nat
  invoice_no : String
  date : String
  type : String
  customer : String
  items : String
  total : Rat
  notes : String
  deriving DecidableEq

/-- Database state: the `invoices` table plus the `meta` table's single
`last_invoice` counter (stored as a decimal string in the code, always the
rendering of a natural number, so modelled as `Nat`). -/
structure DB where
  invoices : List Invoice
  last_invoice : Nat
  deriving DecidableEq

/-- Errors surfaced by the storage layer: sqlite3.IntegrityError raised by
the `UNIQUE` constraint on `invoice_no`. -/
inductive DBError where
  | uniqueConstraintViolation
  deriving DecidableEq

/-- Rowid a fresh `INSERT` receives: SQLite assigns one larger than the
largest rowid in use (1 for an empty table). -/
def nextId (db : DB) : Nat :=
  (db.invoices.foldr (fun r m => max r.id m) 0) + 1

/-- InvoiceDB.add_invoice: `INSERT INTO invoices (invoice_no, date, type,
customer, items, total, notes) VALUES (...)`; returns `c.lastrowid`.
The insert fails with an integrity error when `invoice_no` collides with a
stored row (the column is `UNIQUE`). -/
def add_invoice (db : DB) (invoice_no date itype customer items_text : String)
    (total : Rat) (notes : String) : Except DBError (Nat × DB) :=
  if db.invoices.any (fun r => r.invoice_no == invoice_no) then
    .error .uniqueConstraintViolation
  else
    let i := nextId db
    .ok (i, { db with
      invoices := db.invoices ++ [⟨i, invoice_no, date, itype, customer, items_text, total, notes⟩] })

/-- InvoiceDB.update_invoice: `UPDATE invoices SET ... WHERE id=?`.
Zero matched rows is a silent no-op.  When the target row exists and the new
`invoice_no` equals the `invoice_no` of a different row, the `UNIQUE`
constraint rejects the update. -/
def update_invoice (db : DB) (id_ : Nat) (invoice_no date itype customer items_text : String)
    (total : Rat) (notes : String) : Except DBError DB :=
  if db.invoices.any (fun r => r.id == id_) &&
     db.invoices.any (fun r => r.id != id_ && r.invoice_no == invoice_no) then
    .error .uniqueConstraintViolation
  else
    .ok { db with
      invoices := db.invoices.map (fun r =>
        if r.id = id_ then
          { r with invoice_no := invoice_no, date := date, type := itype,
                   customer := customer, items := items_text, total := total, notes := notes }
        else r) }

/-- InvoiceDB.delete_invoice: `DELETE FROM invoices WHERE id=?`. -/
def delete_invoice (db : DB) (id_ : Nat) : DB :=
  { db with invoices := db.invoices.filter (fun r => r.id != id_) }

/-- InvoiceDB.get_invoice: `SELECT * FROM invoices WHERE id=?` with
`fetchone()` (first matching row, `None` when absent). -/
def get_invoice (db : DB) (id_ : Nat) : Option Invoice :=
  db.invoices.find? (fun r => r.id == id_)

/-- ASCII lower-casing, the folding SQLite's default `LIKE` applies. -/
def asciiLower (c : Char) : Char :=
  if 'A' ≤ c && c ≤ 'Z' then Char.ofNat (c.toNat + 32) else c

/-- SQLite `LIKE` pattern matching (no ESCAPE clause): `%` matches any
sequence, `_` matches any single character, other characters match
case-insensitively over ASCII. -/
def likeM : List Char → List Char → Bool
  | [], s => s.isEmpty
  | '%' :: ps, s => s.tails.any (fun t => likeM ps t)
  | '_' :: ps, s =>
    match s with
    | [] => false
    | _ :: t => likeM ps t
  | p :: ps, s =>
    match s with
    | [] => false
    | c :: t => (asciiLower p == asciiLower c) && likeM ps t

/-- Numeric value of a decimal digit character. -/
def digitVal (c : Char) : Nat := c.toNat - '0'.toNat

/-- Whether a string is a well-formed `YYYY-MM-DD` date in the ranges
SQLite accepts: four digits, dash, month 01-12, dash, day 01-31. -/
def validYMD (s : String) : Bool :=
  match s.data with
  | [a, b, c, d, h1, e, f, h2, g, k] =>
    if a.isDigit && b.isDigit && c.isDigit && d.isDigit && h1 == '-' &&
       e.isDigit && f.isDigit && h2 == '-' && g.isDigit && k.isDigit then
      let m := digitVal e * 10 + digitVal f
      let dd := digitVal g * 10 + digitVal k
      1 ≤ m && m ≤ 12 && 1 ≤ dd && dd ≤ 31
    else false
  | _ => false

/-- SQLite `date()` applied to this app's date strings: a well-formed
`YYYY-MM-DD` string comes back unchanged (verified against SQLite 3.40:
no normalization, day 1-31 accepted in every month), anything else
yields NULL, modelled as `none`.  Comparison of two `date()` results is
therefore plain lexicographic string comparison. -/
def sqlDate (s : String) : Option String :=
  if validYMD s then some s else none

/-- Lexicographic order on character lists by code point, which on UTF-8
encoded text coincides with SQLite's BINARY collation (byte-wise
memcmp). -/
def lexLe : List Char → List Char → Bool
  | [], _ => true
  | _ :: _, [] => false
  | a :: s, b :: t =>
    if a.toNat < b.toNat then true
    else if b.toNat < a.toNat then false
    else lexLe s t

/-- String comparison under the BINARY collation. -/
def strLe (a b : String) : Bool := lexLe a.data b.data

/-- SQL `a >= b` under three-valued logic: NULL on either side means the
row is not selected. -/
def condGE (a b : Option String) : Bool :=
  match a, b with
  | some x, some y => strLe y x
  | _, _ => false

/-- SQL `a <= b` under three-valued logic. -/
def condLE (a b : Option String) : Bool :=
  match a, b with
  | some x, some y => strLe x y
  | _, _ => false

/-- The projection `SELECT id, invoice_no, date, type, customer, total`
returned by `list_invoices`. -/
structure Summary where
  id : Nat
  invoice_no : String
  date : String
  type : String
  customer : String
  total : Rat
  deriving DecidableEq

/-- Project a stored row to the listing columns. -/
def toSummary (r : Invoice) : Summary :=
  ⟨r.id, r.invoice_no, r.date, r.type, r.customer, r.total⟩

/-- Filter dictionary accepted by `list_invoices`; a missing key is
`none`.  An empty-string value is falsy in Python and deactivates the
clause exactly like a missing key. -/
structure Filters where
  type : Option String := none
  customer : Option String := none
  invoice_no : Option String := none
  date_from : Option String := none
  date_to : Option String := none
  deriving DecidableEq

/-- The WHERE clause `list_invoices` builds: `type=?`,
`customer LIKE '%..%'`, `invoice_no LIKE '%..%'`,
`date(date) >= date(?)` and `date(date) <= date(?)`, AND-combined, each
present only when its filter value is truthy. -/
def matchesFilters (f : Filters) (r : Invoice) : Bool :=
  (match f.type with
   | some s => if s.isEmpty then true else r.type == s
   | none => true) &&
  (match f.customer with
   | some s => if s.isEmpty then true else likeM ("%" ++ s ++ "%").data r.customer.data
   | none => true) &&
  (match f.invoice_no with
   | some s => if s.isEmpty then true else likeM ("%" ++ s ++ "%").data r.invoice_no.data
   | none => true) &&
  (match f.date_from with
   | some s => if s.isEmpty then true else condGE (sqlDate r.date) (sqlDate s)
   | none => true) &&
  (match f.date_to with
   | some s => if s.isEmpty then true else condLE (sqlDate r.date) (sqlDate s)
   | none => true)

/-- Descending comparison under `ORDER BY date(date) DESC`: `keyGE a b`
says `a` may come no later than `b`.  Valid dates compare as strings,
NULL (an unparseable date) sorts after every real date in descending
order. -/
def keyGE (a b : Option String) : Bool :=
  match a, b with
  | some x, some y => strLe y x
  | some _, none => true
  | none, some _ => false
  | none, none => true

/-- Sort key of a listed row. -/
def dateKey (s : Summary) : Option String := sqlDate s.date

/-- Insert into a date-descending-sorted list, keeping it sorted. -/
def insertByRank (a : Summary) : List Summary → List Summary
  | [] => [a]
  | b :: l =>
    if keyGE (dateKey a) (dateKey b) then a :: b :: l
    else b :: insertByRank a l

/-- Sort by date descending (`ORDER BY date(date) DESC`); SQLite fixes no
order among equal keys, and any date-descending arrangement satisfies the
properties proved below. -/
def sortDesc : List Summary → List Summary
  | [] => []
  | a :: l => insertByRank a (sortDesc l)

/-- InvoiceDB.list_invoices: `filters = filters or {}`, build the WHERE
clause, `SELECT id, invoice_no, date, type, customer, total FROM invoices
... ORDER BY date(date) DESC`. -/
def list_invoices (db : DB) (filters : Option Filters) : List Summary :=
  let f := filters.getD {}
  sortDesc ((db.invoices.filter (fun r => matchesFilters f r)).map toSummary)

/-- Base-10 digit list of `n`, least significant first; the fuel
argument (any bound on the digit count, `n` itself works) keeps the
recursion structural. -/
def digitsRev : Nat → Nat → List Nat
  | 0, _ => []
  | fuel + 1, n => if n = 0 then [] else n % 10 :: digitsRev fuel (n / 10)

/-- Decimal rendering of a natural number (Python `str` on a
non-negative int). -/
def natToDecimal (n : Nat) : String :=
  if n = 0 then "0"
  else String.mk ((digitsRev n n).reverse.map Nat.digitChar)

/-- Python format specifier `05d` as used for the invoice number suffix:
the decimal rendering left-padded with zeros to a minimum width of five
characters (wider numbers print in full). -/
def pad5 (n : Nat) : String :=
  let s := natToDecimal n
  String.mk (List.replicate (5 - s.length) '0' ++ s.data)

/-- Numeric reading of a digit string (left-to-right accumulation), used
to state that the padded suffix still denotes the counter value. -/
def decValue (s : String) : Nat :=
  s.data.foldl (fun acc c => acc * 10 + digitVal c) 0

/-- InvoiceDB.next_invoice_no: read the `last_invoice` counter, add one,
persist the new value, return the prefixed zero-padded number. -/
def next_invoice_no (db : DB) (pfx : String) : String × DB :=
  let last := db.last_invoice + 1
  (pfx ++ "-" ++ pad5 last, { db with last_invoice := last })

/-- Sequential calls of `next_invoice_no`, one per listed prefix,
threading the database state. -/
def iterNext : DB → List String → List String × DB
  | db, [] => ([], db)
  | db, p :: ps =>
    let r := next_invoice_no db p
    let rest := iterNext r.2 ps
    (r.1 :: rest.1, rest.2)

/-- Double each quote character (the quoting rule of the csv module's
default dialect). -/
def escapeQ : List Char → List Char
  | [] => []
  | c :: cs => if c = '"' then '"' :: '"' :: escapeQ cs else c :: escapeQ cs

/-- QUOTE_MINIMAL: a field is quoted exactly when it contains the
delimiter, the quote character, or a line-terminator character. -/
def needsQuote (f : String) : Bool :=
  f.data.any (fun c => c == ',' || c == '"' || c == '\r' || c == '\n')

/-- Serialize one field per the csv module's default (excel) dialect. -/
def writeField (f : String) : List Char :=
  if needsQuote f then '"' :: (escapeQ f.data ++ ['"']) else f.data

/-- Serialize one record: fields joined by commas, terminated by CRLF
(the default lineterminator of `csv.writer`). -/
def writeRow : List String → List Char
  | [] => ['\r', '\n']
  | [f] => writeField f ++ ['\r', '\n']
  | f :: fs => writeField f ++ ',' :: writeRow fs

/-- Serialize a sequence of records. -/
def writeRows : List (List String) → List Char
  | [] => []
  | r :: rs => writeRow r ++ writeRows rs

/-- The fixed header row of `export_csv`. -/
def csvHeaders : List String :=
  ["id", "invoice_no", "date", "type", "customer", "items", "total", "notes"]

/-- InvoiceDB.export_csv (csv-module branch, the one fully in this file):
`writer.writerow(headers)` then one `writer.writerow(r)` per record,
cells taken as their written string forms. -/
def export_csv (rows : List (List String)) : String :=
  String.mk (writeRows (csvHeaders :: rows))

/-- Read one quoted-field body: a doubled quote is a literal quote, a
lone quote closes the field.  Returns the field content and the input
remaining after the closing quote. -/
def parseQuoted : List Char → List Char → (List Char × List Char)
  | [], acc => (acc.reverse, [])
  | ['"'], acc => (acc.reverse, [])
  | '"' :: c :: rest, acc =>
    if c = '"' then parseQuoted rest ('"' :: acc)
    else (acc.reverse, c :: rest)
  | c :: rest, acc => parseQuoted rest (c :: acc)

/-- Read one record (RFC-4180 / csv-module grammar): a comma ends a
field, CRLF ends the record, a quote opening an empty field starts a
quoted field.  Returns the record's fields and the unconsumed input. -/
def parseRec : List Char → List Char → List String → (List String × List Char)
  | [], acc, fields => ((String.mk acc.reverse :: fields).reverse, [])
  | '\r' :: '\n' :: rest, acc, fields => ((String.mk acc.reverse :: fields).reverse, rest)
  | c :: rest, acc, fields =>
    if c = ',' then parseRec rest [] (String.mk acc.reverse :: fields)
    else if c = '"' ∧ acc = [] then
      match h : parseQuoted rest [] with
      | (content, ',' :: r) => parseRec r [] (String.mk content :: fields)
      | (content, '\r' :: '\n' :: r) => ((String.mk content :: fields).reverse, r)
      | (content, []) => ((String.mk content :: fields).reverse, [])
      | (content, r) => parseRec r content.reverse fields
    else parseRec rest (c :: acc) fields
termination_by s _ _ => s.length
decreasing_by
  all_goals simp_wf
  all_goals try omega
  all_goals (have hl : ∀ s acc, (parseQuoted s acc).2.length ≤ s.length := by
               intro s acc
               induction s, acc using parseQuoted.induct <;> simp_all [parseQuoted] <;> omega
             have hl2 := hl rest []
             have h2 := congrArg List.length (congrArg Prod.snd h)
             simp at h2
             omega)

/-- Split the input into records; the fuel argument bounds the record
count (each record consumes at least one character). -/
def parseRecords : Nat → List Char → List (List String)
  | 0, _ => []
  | _ + 1, [] => []
  | fuel + 1, c :: rest =>
    let p := parseRec (c :: rest) [] []
    p.1 :: parseRecords fuel p.2

/-- Re-parse of delimited text per the csv-module grammar. -/
def csvParse (s : String) : List (List String) :=
  parseRecords s.data.length s.data

/-- Well-formedness invariant SQLite's `INTEGER PRIMARY KEY` maintains:
stored rowids are pairwise distinct. -/
def DB.WF (db : DB) : Prop := (db.invoices.map Invoice.id).Nodup

instance (db : DB) : Decidable db.WF :=
  inferInstanceAs (Decidable (db.invoices.map Invoice.id).Nodup)

/-!  Helper lemmas. -/

theorem mem_id_le_foldr_max (l : List Invoice) (r : Invoice) (h : r ∈ l) :
    r.id ≤ l.foldr (fun r m => max r.id m) 0 := by
  induction l with
  | nil => cases h
  | cons a t ih =>
    rcases List.mem_cons.mp h with rfl | hm
    · exact Nat.le_max_left _ _
    · exact Nat.le_trans (ih hm) (Nat.le_max_right _ _)

theorem find?_append_none {α : Type} {p : α → Bool} {l1 l2 : List α}
    (h : ∀ a ∈ l1, p a = false) :
    List.find? p (l1 ++ l2) = List.find? p l2 := by
  induction l1 with
  | nil => simp
  | cons a t ih =>
    have ha : p a = false := h a (List.mem_cons_self a t)
    simp only [List.cons_append, List.find?]
    rw [ha]
    exact ih (fun x hx => h x (List.mem_cons_of_mem a hx))

theorem lexLe_refl (s : List Char) : lexLe s s = true := by
  induction s with
  | nil => rfl
  | cons a t ih => simp [lexLe, ih]

theorem lexLe_total (s t : List Char) : lexLe s t = true ∨ lexLe t s = true := by
  induction s generalizing t with
  | nil => exact Or.inl rfl
  | cons a s' ih =>
    cases t with
    | nil => exact Or.inr rfl
    | cons b t' =>
      simp only [lexLe]
      rcases Nat.lt_trichotomy a.toNat b.toNat with h | h | h
      · left ; simp [h]
      · rcases ih t' with h2 | h2 <;> simp [h, h2]
      · right ; simp [h, Nat.lt_asymm h]

theorem lexLe_trans {s t u : List Char} (h1 : lexLe s t = true)
    (h2 : lexLe t u = true) : lexLe s u = true := by
  induction s generalizing t u with
  | nil => rfl
  | cons a s' ih =>
    cases t with
    | nil => simp [lexLe] at h1
    | cons b t' =>
      cases u with
      | nil => simp [lexLe] at h2
      | cons c u' =>
        simp only [lexLe] at h1 h2 ⊢
        rcases Nat.lt_trichotomy a.toNat b.toNat with hab | hab | hab
        · rcases Nat.lt_trichotomy b.toNat c.toNat with hbc | hbc | hbc
          · simp [show a.toNat < c.toNat by omega]
          · simp [show a.toNat < c.toNat by omega]
          · simp [Nat.lt_asymm hbc, hbc] at h2
        · rcases Nat.lt_trichotomy b.toNat c.toNat with hbc | hbc | hbc
          · simp [show a.toNat < c.toNat by omega]
          · have h1' : lexLe s' t' = true := by simpa [hab] using h1
            have h2' : lexLe t' u' = true := by simpa [hbc] using h2
            simpa [show ¬ a.toNat < c.toNat by omega, show ¬ c.toNat < a.toNat by omega]
              using ih h1' h2'
          · simp [Nat.lt_asymm hbc, hbc] at h2
        · simp [Nat.lt_asymm hab, hab] at h1

theorem keyGE_total (a b : Option String) : keyGE a b = true ∨ keyGE b a = true := by
  cases a <;> cases b <;> simp [keyGE, strLe]
  exact lexLe_total _ _

theorem keyGE_trans {a b c : Option String} (h1 : keyGE a b = true)
    (h2 : keyGE b c = true) : keyGE a c = true := by
  cases a <;> cases b <;> cases c <;> simp_all [keyGE, strLe]
  exact lexLe_trans h2 h1

theorem mem_insertByRank {x a : Summary} {l : List Summary} :
    x ∈ insertByRank a l ↔ x = a ∨ x ∈ l := by
  induction l with
  | nil => simp [insertByRank]
  | cons b t ih =>
    simp only [insertByRank]
    split
    · simp [List.mem_cons]
    · simp [List.mem_cons, ih]
      tauto

theorem mem_sortDesc {x : Summary} {l : List Summary} :
    x ∈ sortDesc l ↔ x ∈ l := by
  induction l with
  | nil => simp [sortDesc]
  | cons a t ih => simp [sortDesc, mem_insertByRank, ih]

theorem pairwise_insertByRank {a : Summary} {l : List Summary}
    (h : l.Pairwise (fun x y => keyGE (dateKey x) (dateKey y) = true)) :
    (insertByRank a l).Pairwise (fun x y => keyGE (dateKey x) (dateKey y) = true) := by
  induction l with
  | nil => simp [insertByRank]
  | cons b t ih =>
    rcases List.pairwise_cons.mp h with ⟨hb, ht⟩
    simp only [insertByRank]
    split
    · rename_i hab
      refine List.pairwise_cons.mpr ⟨?_, h⟩
      intro y hy
      rcases List.mem_cons.mp hy with rfl | hyt
      · exact hab
      · exact keyGE_trans hab (hb y hyt)
    · rename_i hab
      refine List.pairwise_cons.mpr ⟨?_, ih ht⟩
      intro y hy
      rcases mem_insertByRank.mp hy with rfl | hyt
      · rcases keyGE_total (dateKey y) (dateKey b) with h1 | h1
        · exact absurd h1 (by simpa using hab)
        · exact h1
      · exact hb y hyt

theorem sortDesc_pairwise (l : List Summary) :
    (sortDesc l).Pairwise (fun x y => keyGE (dateKey x) (dateKey y) = true) := by
  induction l with
  | nil => simp [sortDesc]
  | cons a t ih => exact pairwise_insertByRank ih

theorem map_id_of_all {α : Type} {f : α → α} {l : List α} (h : ∀ a ∈ l, f a = a) :
    l.map f = l := by
  induction l with
  | nil => rfl
  | cons a t ih =>
    simp only [List.map_cons, h a (List.mem_cons_self a t)]
    rw [ih (fun x hx => h x (List.mem_cons_of_mem a hx))]

theorem find_id_of_mem {l : List Invoice} {r : Invoice}
    (hnd : (l.map Invoice.id).Nodup) (hr : r ∈ l) :
    l.find? (fun x => x.id == r.id) = some r := by
  induction l with
  | nil => cases hr
  | cons a t ih =>
    rw [List.map_cons] at hnd
    rcases List.nodup_cons.mp hnd with ⟨ha, ht⟩
    rcases List.mem_cons.mp hr with rfl | hrt
    · simp [List.find?]
    · have hne : (a.id == r.id) = false := by
        simp only [beq_eq_false_iff_ne, ne_eq]
        intro hid
        exact ha (hid ▸ List.mem_map_of_mem Invoice.id hrt)
      simp only [List.find?, hne]
      exact ih ht hrt

theorem get_invoice_of_mem {db : DB} {r : Invoice} (hwf : db.WF) (hr : r ∈ db.invoices) :
    get_invoice db r.id = some r :=
  find_id_of_mem hwf hr

theorem length_filter_out {l : List Invoice} {id_ : Nat}
    (hnd : (l.map Invoice.id).Nodup) (hin : id_ ∈ l.map Invoice.id) :
    (l.filter (fun r => r.id != id_)).length + 1 = l.length := by
  induction l with
  | nil => cases hin
  | cons a t ih =>
    rw [List.map_cons] at hnd hin
    rcases List.nodup_cons.mp hnd with ⟨ha, ht⟩
    rcases List.mem_cons.mp hin with rfl | hint
    · have hpa : (a.id != a.id) = false := by simp
      have hall : t.filter (fun r => r.id != a.id) = t := by
        rw [List.filter_eq_self]
        intro x hx
        simp only [bne_iff_ne, ne_eq]
        intro hx2
        exact ha (hx2 ▸ List.mem_map_of_mem Invoice.id hx)
      simp [List.filter_cons, hpa, hall]
    · have hpa : (a.id != id_) = true := by
        simp only [bne_iff_ne, ne_eq]
        intro hx2
        exact ha (hx2 ▸ hint)
      have hrec := ih ht hint
      simp only [List.filter_cons, hpa, if_pos]
      simp only [List.length_cons]
      omega

theorem mem_list_invoices {db : DB} {f : Filters} {r : Summary} :
    r ∈ list_invoices db (some f) ↔
      ∃ inv, inv ∈ db.invoices ∧ matchesFilters f inv = true ∧ toSummary inv = r := by
  simp only [list_invoices, Option.getD_some, mem_sortDesc, List.mem_map, List.mem_filter]
  constructor
  · rintro ⟨inv, ⟨hm, hf⟩, hp⟩
    exact ⟨inv, hm, hf, hp⟩
  · rintro ⟨inv, hm, hf, hp⟩
    exact ⟨inv, ⟨hm, hf⟩, hp⟩

/-!  Claim theorems. -/

/-- C1: for every valid invoice input, `add_invoice` followed by
`get_invoice` on the returned id yields a record whose fields all equal
what was supplied (with the assigned id). -/
theorem add_then_get (db : DB) (invoice_no date itype customer items_text : String)
    (total : Rat) (notes : String) (i : Nat) (db' : DB)
    (h : add_invoice db invoice_no date itype customer items_text total notes = .ok (i, db')) :
    get_invoice db' i = some ⟨i, invoice_no, date, itype, customer, items_text, total, notes⟩ := by
  unfold add_invoice at h
  cases hany : db.invoices.any (fun r => r.invoice_no == invoice_no) with
  | true => rw [hany] at h ; simp at h
  | false =>
    rw [hany] at h
    simp only [if_neg Bool.false_ne_true, Except.ok.injEq, Prod.mk.injEq] at h
    rcases h with ⟨hi, hdb⟩
    subst hi
    subst hdb
    unfold get_invoice
    simp only []
    rw [find?_append_none]
    · simp [List.find?]
    · intro r hr
      have hle := mem_id_le_foldr_max db.invoices r hr
      simp only [beq_eq_false_iff_ne, ne_eq, nextId]
      omega

/-- C1 witness: adding a concrete invoice to the empty store and reading
it back returns exactly the supplied fields. -/
theorem add_then_get_witness :
    get_invoice ⟨[⟨1, "INV-00001", "2024-01-10", "Outward", "Acme", "Widget x2 - 50", 50, ""⟩], 0⟩ 1
      = some ⟨1, "INV-00001", "2024-01-10", "Outward", "Acme", "Widget x2 - 50", 50, ""⟩ :=
  add_then_get ⟨[], 0⟩ "INV-00001" "2024-01-10" "Outward" "Acme" "Widget x2 - 50" 50 "" 1
    ⟨[⟨1, "INV-00001", "2024-01-10", "Outward", "Acme", "Widget x2 - 50", 50, ""⟩], 0⟩ rfl

/-- C3: adding an invoice whose `invoice_no` is already stored fails with
the uniqueness-constraint error, and the previously stored record remains
retrievable unchanged through `get_invoice` (the state is not modified). -/
theorem add_duplicate_fails (db : DB) (r : Invoice) (hwf : db.WF) (hr : r ∈ db.invoices)
    (date itype customer items_text : String) (total : Rat) (notes : String) :
    add_invoice db r.invoice_no date itype customer items_text total notes
      = .error .uniqueConstraintViolation
    ∧ get_invoice db r.id = some r := by
  constructor
  · unfold add_invoice
    have hany : db.invoices.any (fun x => x.invoice_no == r.invoice_no) = true :=
      List.any_eq_true.mpr ⟨r, hr, by simp⟩
    rw [hany]
    simp
  · exact get_invoice_of_mem hwf hr

/-- C3 witness: a concrete duplicate `invoice_no` is rejected and the
stored row is still readable. -/
theorem add_duplicate_fails_witness :
    add_invoice ⟨[⟨1, "INV-00001", "2024-01-10", "Outward", "Acme", "it", 50, "n"⟩], 3⟩
        "INV-00001" "2024-02-02" "Inward" "Borg" "x" 9 "m"
      = .error .uniqueConstraintViolation
    ∧ get_invoice ⟨[⟨1, "INV-00001", "2024-01-10", "Outward", "Acme", "it", 50, "n"⟩], 3⟩ 1
      = some ⟨1, "INV-00001", "2024-01-10", "Outward", "Acme", "it", 50, "n"⟩ :=
  add_duplicate_fails ⟨[⟨1, "INV-00001", "2024-01-10", "Outward", "Acme", "it", 50, "n"⟩], 3⟩
    ⟨1, "INV-00001", "2024-01-10", "Outward", "Acme", "it", 50, "n"⟩
    (by decide) (by decide) "2024-02-02" "Inward" "Borg" "x" 9 "m"

/-- C7: updating an id that identifies no stored invoice raises no error
and returns the store unchanged (silent no-op). -/
theorem update_missing_id_noop (db : DB) (id_ : Nat)
    (invoice_no date itype customer items_text : String) (total : Rat) (notes : String)
    (h : id_ ∉ db.invoices.map Invoice.id) :
    update_invoice db id_ invoice_no date itype customer items_text total notes = .ok db := by
  have hmem : ∀ r ∈ db.invoices, r.id ≠ id_ := by
    intro r hr hid
    exact h (hid ▸ List.mem_map_of_mem Invoice.id hr)
  unfold update_invoice
  have hany : db.invoices.any (fun r => r.id == id_) = false := by
    rw [List.any_eq_false]
    intro r hr
    simp [hmem r hr]
  rw [hany]
  simp only [Bool.false_and, if_neg Bool.false_ne_true]
  have hmap : db.invoices.map (fun r =>
      if r.id = id_ then
        { r with invoice_no := invoice_no, date := date, type := itype,
                 customer := customer, items := items_text, total := total, notes := notes }
      else r) = db.invoices :=
    map_id_of_all (fun r hr => if_neg (hmem r hr))
  rw [hmap]

/-- C7 witness: updating a missing id on a concrete store is accepted and
changes nothing. -/
theorem update_missing_id_noop_witness :
    update_invoice ⟨[⟨1, "I1", "2024-01-10", "Outward", "Acme", "it", 50, "n"⟩], 0⟩ 2
        "I9" "2024-02-02" "Inward" "B" "x" 9 "m"
      = .ok ⟨[⟨1, "I1", "2024-01-10", "Outward", "Acme", "it", 50, "n"⟩], 0⟩ :=
  update_missing_id_noop ⟨[⟨1, "I1", "2024-01-10", "Outward", "Acme", "it", 50, "n"⟩], 0⟩ 2
    "I9" "2024-02-02" "Inward" "B" "x" 9 "m" (by decide)

/-- C8: deleting a missing id raises no error and leaves the store
unchanged; membership after a delete is exactly membership before minus
the targeted id; and when the id exists (under the primary-key
invariant), exactly one record is removed. -/
theorem delete_spec (db : DB) (id_ : Nat) :
    (id_ ∉ db.invoices.map Invoice.id → delete_invoice db id_ = db)
    ∧ (∀ r, r ∈ (delete_invoice db id_).invoices ↔ r ∈ db.invoices ∧ r.id ≠ id_)
    ∧ (db.WF → id_ ∈ db.invoices.map Invoice.id →
        (delete_invoice db id_).invoices.length + 1 = db.invoices.length) := by
  refine ⟨?_, ?_, ?_⟩
  · intro h
    have hmem : ∀ r ∈ db.invoices, (r.id != id_) = true := by
      intro r hr
      simp only [bne_iff_ne, ne_eq]
      intro hid
      exact h (hid ▸ List.mem_map_of_mem Invoice.id hr)
    unfold delete_invoice
    rw [List.filter_eq_self.mpr hmem]
  · intro r
    unfold delete_invoice
    simp [List.mem_filter]
  · intro hwf hin
    exact length_filter_out hwf hin

/-- C8 witness: on a concrete two-row store, deleting an absent id is the
identity and deleting a present id removes exactly one row. -/
theorem delete_spec_witness :
    delete_invoice ⟨[⟨1, "I1", "2024-01-10", "Outward", "A", "i", 5, ""⟩,
                     ⟨2, "I2", "2024-02-02", "Inward", "B", "j", 6, ""⟩], 0⟩ 5
      = ⟨[⟨1, "I1", "2024-01-10", "Outward", "A", "i", 5, ""⟩,
          ⟨2, "I2", "2024-02-02", "Inward", "B", "j", 6, ""⟩], 0⟩
    ∧ (delete_invoice ⟨[⟨1, "I1", "2024-01-10", "Outward", "A", "i", 5, ""⟩,
                        ⟨2, "I2", "2024-02-02", "Inward", "B", "j", 6, ""⟩], 0⟩ 2).invoices.length + 1
      = 2 :=
  ⟨(delete_spec ⟨[⟨1, "I1", "2024-01-10", "Outward", "A", "i", 5, ""⟩,
                  ⟨2, "I2", "2024-02-02", "Inward", "B", "j", 6, ""⟩], 0⟩ 5).1 (by decide),
   (delete_spec ⟨[⟨1, "I1", "2024-01-10", "Outward", "A", "i", 5, ""⟩,
                  ⟨2, "I2", "2024-02-02", "Inward", "B", "j", 6, ""⟩], 0⟩ 2).2.2 (by decide) (by decide)⟩

/-- C9: list results are summary projections of stored rows and are
ordered newest date first: for any earlier/later pair in the result, the
earlier row's date sorts no lower (dates compared as SQLite compares
`date(date)`: valid dates by value, unparseable dates last). -/
theorem list_invoices_sorted (db : DB) (fo : Option Filters) :
    (list_invoices db fo).Pairwise (fun a b => keyGE (dateKey a) (dateKey b) = true)
    ∧ ∀ r ∈ list_invoices db fo, ∃ inv ∈ db.invoices, toSummary inv = r := by
  constructor
  · unfold list_invoices
    exact sortDesc_pairwise _
  · intro r hr
    unfold list_invoices at hr
    rw [mem_sortDesc] at hr
    rcases List.mem_map.mp hr with ⟨inv, hmem, hp⟩
    exact ⟨inv, (List.mem_filter.mp hmem).1, hp⟩

/-- C9 witness: on a concrete store the listing is date-descending and
each listed row projects a stored invoice. -/
theorem list_invoices_sorted_witness :
    (list_invoices ⟨[⟨1, "I1", "2024-01-10", "Outward", "A", "i", 5, ""⟩,
                     ⟨2, "I2", "2024-03-05", "Inward", "B", "j", 6, ""⟩], 0⟩ none).Pairwise
      (fun a b => keyGE (dateKey a) (dateKey b) = true)
    ∧ ∃ inv ∈ (⟨[⟨1, "I1", "2024-01-10", "Outward", "A", "i", 5, ""⟩,
                 ⟨2, "I2", "2024-03-05", "Inward", "B", "j", 6, ""⟩], 0⟩ : DB).invoices,
        toSummary inv = ⟨2, "I2", "2024-03-05", "Inward", "B", 6⟩ :=
  ⟨(list_invoices_sorted ⟨[⟨1, "I1", "2024-01-10", "Outward", "A", "i", 5, ""⟩,
                           ⟨2, "I2", "2024-03-05", "Inward", "B", "j", 6, ""⟩], 0⟩ none).1,
   (list_invoices_sorted ⟨[⟨1, "I1", "2024-01-10", "Outward", "A", "i", 5, ""⟩,
                           ⟨2, "I2", "2024-03-05", "Inward", "B", "j", 6, ""⟩], 0⟩ none).2
     ⟨2, "I2", "2024-03-05", "Inward", "B", 6⟩ (by decide)⟩

/-- C10: passing no filter dictionary is the same as passing an empty
one, and in both cases every stored invoice appears in the result. -/
theorem list_none_eq_empty_filters (db : DB) :
    list_invoices db none = list_invoices db (some {})
    ∧ ∀ inv ∈ db.invoices, toSummary inv ∈ list_invoices db none := by
  constructor
  · rfl
  · intro inv hm
    unfold list_invoices
    rw [mem_sortDesc]
    refine List.mem_map.mpr ⟨inv, ?_, rfl⟩
    rw [List.mem_filter]
    exact ⟨hm, rfl⟩

/-- C10 witness: concrete store, no filters: both call forms agree and a
stored invoice shows up in the listing. -/
theorem list_none_eq_empty_filters_witness :
    list_invoices ⟨[⟨1, "I1", "2024-01-10", "Outward", "A", "i", 5, ""⟩], 7⟩ none
      = list_invoices ⟨[⟨1, "I1", "2024-01-10", "Outward", "A", "i", 5, ""⟩], 7⟩ (some {})
    ∧ toSummary ⟨1, "I1", "2024-01-10", "Outward", "A", "i", 5, ""⟩
      ∈ list_invoices ⟨[⟨1, "I1", "2024-01-10", "Outward", "A", "i", 5, ""⟩], 7⟩ none :=
  ⟨(list_none_eq_empty_filters ⟨[⟨1, "I1", "2024-01-10", "Outward", "A", "i", 5, ""⟩], 7⟩).1,
   (list_none_eq_empty_filters ⟨[⟨1, "I1", "2024-01-10", "Outward", "A", "i", 5, ""⟩], 7⟩).2
     ⟨1, "I1", "2024-01-10", "Outward", "A", "i", 5, ""⟩ (by decide)⟩

/-- C4 counterexample: the customer filter is not substring containment.
Filtering a store holding customer "Bob" by the string "_ob" returns the
record (SQL LIKE treats the underscore as a single-character wildcard),
although "_ob" is not a substring of "Bob". -/
theorem customer_filter_not_substring :
    (⟨1, "I1", "2024-01-10", "Outward", "Bob", 50⟩ : Summary)
      ∈ list_invoices ⟨[⟨1, "I1", "2024-01-10", "Outward", "Bob", "it", 50, ""⟩], 0⟩
          (some { customer := some "_ob" })
    ∧ ¬ List.IsInfix "_ob".data "Bob".data := by
  constructor
  · decide
  · decide

/-- C4 (amended): the type filter "Inward" returns exactly the stored
records whose type is "Inward"; the non-empty customer filter `s`
returns exactly the stored records whose customer field matches the SQL
LIKE pattern percent-s-percent (wildcards `%` and `_` interpreted, ASCII
case-insensitive), which is substring containment only for wildcard-free
patterns of matching case. -/
theorem list_filter_type_customer (db : DB) (s : String) (r : Summary) (hs : s ≠ "") :
    (r ∈ list_invoices db (some { type := some "Inward" }) ↔
      ∃ inv, inv ∈ db.invoices ∧ inv.type = "Inward" ∧ toSummary inv = r)
    ∧ (r ∈ list_invoices db (some { customer := some s }) ↔
      ∃ inv, inv ∈ db.invoices ∧ likeM ("%" ++ s ++ "%").data inv.customer.data = true
        ∧ toSummary inv = r) := by
  have hse : s.isEmpty = false := by
    rw [Bool.eq_false_iff]
    intro h2
    exact hs ((String.isEmpty_iff s).mp h2)
  constructor
  · have hpred : ∀ inv, matchesFilters { type := some "Inward" } inv = (inv.type == "Inward") := by
      intro inv
      simp [matchesFilters, show "Inward".isEmpty = false from rfl]
    rw [mem_list_invoices]
    simp only [hpred, beq_iff_eq]
  · have hpred : ∀ inv, matchesFilters { customer := some s } inv
        = likeM ("%" ++ s ++ "%").data inv.customer.data := by
      intro inv
      simp [matchesFilters, hse]
    rw [mem_list_invoices]
    simp only [hpred]

/-- C4 witness: filtering by customer "o" lists the stored "Bob" row,
and filtering by type "Inward" lists a stored "Inward" row. -/
theorem list_filter_type_customer_witness :
    (⟨1, "I1", "2024-01-10", "Outward", "Bob", 50⟩ : Summary)
      ∈ list_invoices ⟨[⟨1, "I1", "2024-01-10", "Outward", "Bob", "it", 50, ""⟩], 0⟩
          (some { customer := some "o" })
    ∧ (⟨2, "I2", "2024-02-02", "Inward", "Ann", 6⟩ : Summary)
      ∈ list_invoices ⟨[⟨2, "I2", "2024-02-02", "Inward", "Ann", "j", 6, ""⟩], 0⟩
          (some { type := some "Inward" }) :=
  ⟨(list_filter_type_customer ⟨[⟨1, "I1", "2024-01-10", "Outward", "Bob", "it", 50, ""⟩], 0⟩
      "o" ⟨1, "I1", "2024-01-10", "Outward", "Bob", 50⟩ (by decide)).2.mpr
      ⟨⟨1, "I1", "2024-01-10", "Outward", "Bob", "it", 50, ""⟩, by decide, by decide, rfl⟩,
   (list_filter_type_customer ⟨[⟨2, "I2", "2024-02-02", "Inward", "Ann", "j", 6, ""⟩], 0⟩
      "o" ⟨2, "I2", "2024-02-02", "Inward", "Ann", 6⟩ (by decide)).1.mpr
      ⟨⟨2, "I2", "2024-02-02", "Inward", "Ann", "j", 6, ""⟩, by decide, rfl, rfl⟩⟩

theorem condGE_sqlDate {a b : String} :
    condGE (sqlDate a) (sqlDate b) = true ↔
      validYMD a = true ∧ validYMD b = true ∧ strLe b a = true := by
  unfold condGE sqlDate
  cases hva : validYMD a <;> cases hvb : validYMD b <;> simp

theorem condLE_sqlDate {a b : String} :
    condLE (sqlDate a) (sqlDate b) = true ↔
      validYMD a = true ∧ validYMD b = true ∧ strLe a b = true := by
  unfold condLE sqlDate
  cases hva : validYMD a <;> cases hvb : validYMD b <;> simp

/-- C5: with both date bounds active, every returned record's stored
date is a well-formed date lying within the inclusive bound (both bounds
well-formed as well, compared as SQLite compares `date()` values, i.e.
lexicographically on the canonical form); and bounds with
date_from > date_to select nothing. -/
theorem list_date_range (db : DB) (dfrom dto : String) (r : Summary)
    (h1 : dfrom ≠ "") (h2 : dto ≠ "") :
    (r ∈ list_invoices db (some { date_from := some dfrom, date_to := some dto }) →
      validYMD r.date = true ∧ validYMD dfrom = true ∧ validYMD dto = true
      ∧ strLe dfrom r.date = true ∧ strLe r.date dto = true)
    ∧ (strLe dfrom dto = false →
      list_invoices db (some { date_from := some dfrom, date_to := some dto }) = []) := by
  have hse1 : dfrom.isEmpty = false := by
    rw [Bool.eq_false_iff]
    intro hx
    exact h1 ((String.isEmpty_iff dfrom).mp hx)
  have hse2 : dto.isEmpty = false := by
    rw [Bool.eq_false_iff]
    intro hx
    exact h2 ((String.isEmpty_iff dto).mp hx)
  have hcond : ∀ inv : Invoice,
      matchesFilters { date_from := some dfrom, date_to := some dto } inv = true →
      validYMD inv.date = true ∧ validYMD dfrom = true ∧ validYMD dto = true
      ∧ strLe dfrom inv.date = true ∧ strLe inv.date dto = true := by
    intro inv hf
    simp only [matchesFilters, hse1, hse2, Bool.false_eq_true, if_false, Bool.and_eq_true,
      and_true, true_and] at hf
    rcases hf with ⟨hGE, hLE⟩
    rcases condGE_sqlDate.mp hGE with ⟨hv1, hv2, hd1⟩
    rcases condLE_sqlDate.mp hLE with ⟨-, hv3, hd2⟩
    exact ⟨hv1, hv2, hv3, hd1, hd2⟩
  constructor
  · intro hr
    rcases mem_list_invoices.mp hr with ⟨inv, hm, hf, hp⟩
    have hres := hcond inv hf
    have hdate : r.date = inv.date := by
      rw [← hp]
      rfl
    rw [hdate]
    exact hres
  · intro hgt
    have hfilter : db.invoices.filter
        (matchesFilters { date_from := some dfrom, date_to := some dto }) = [] := by
      rw [List.filter_eq_nil_iff]
      intro inv hm hf
      rcases hcond inv hf with ⟨-, -, -, hGE, hLE⟩
      have hcontra : strLe dfrom dto = true := lexLe_trans hGE hLE
      rw [hgt] at hcontra
      cases hcontra
    simp only [list_invoices, Option.getD_some]
    rw [hfilter]
    rfl

/-- C5 witness: a stored date inside concrete bounds is reported within
them; swapping the bounds empties the result. -/
theorem list_date_range_witness :
    (validYMD "2024-03-05" = true ∧ validYMD "2024-01-01" = true ∧ validYMD "2024-12-31" = true
      ∧ strLe "2024-01-01" "2024-03-05" = true ∧ strLe "2024-03-05" "2024-12-31" = true)
    ∧ list_invoices ⟨[⟨1, "I1", "2024-03-05", "Inward", "B", "j", 6, ""⟩], 0⟩
        (some { date_from := some "2024-12-31", date_to := some "2024-01-01" }) = [] :=
  ⟨(list_date_range ⟨[⟨1, "I1", "2024-03-05", "Inward", "B", "j", 6, ""⟩], 0⟩
      "2024-01-01" "2024-12-31" ⟨1, "I1", "2024-03-05", "Inward", "B", 6⟩
      (by decide) (by decide)).1 (by decide),
   (list_date_range ⟨[⟨1, "I1", "2024-03-05", "Inward", "B", "j", 6, ""⟩], 0⟩
      "2024-12-31" "2024-01-01" ⟨1, "I1", "2024-03-05", "Inward", "B", 6⟩
      (by decide) (by decide)).2 (by decide)⟩

theorem digitVal_digitChar : ∀ d, d < 10 → digitVal (Nat.digitChar d) = d := by
  decide

theorem digitsRev_eq_digits : ∀ fuel n, n ≤ fuel → digitsRev fuel n = Nat.digits 10 n := by
  intro fuel
  induction fuel with
  | zero =>
    intro n hn
    have h0 : n = 0 := Nat.le_zero.mp hn
    subst h0
    simp [digitsRev]
  | succ fuel ih =>
    intro n hn
    by_cases h0 : n = 0
    · subst h0
      simp [digitsRev]
    · have hstep : digitsRev (fuel + 1) n = n % 10 :: digitsRev fuel (n / 10) := by
        simp [digitsRev, h0]
      rw [hstep]
      have hdiv : n / 10 ≤ fuel := by
        have hdl : n / 10 < n := Nat.div_lt_self (Nat.pos_of_ne_zero h0) (by omega)
        omega
      rw [ih _ hdiv]
      rw [Nat.digits_def' (by omega) (Nat.pos_of_ne_zero h0)]

theorem foldl_decimal (L : List Nat) (h : ∀ d ∈ L, d < 10) : ∀ a : Nat,
    List.foldl (fun acc c => acc * 10 + digitVal c) a (L.reverse.map Nat.digitChar)
      = a * 10 ^ L.length + Nat.ofDigits 10 L := by
  induction L with
  | nil =>
    intro a
    simp [Nat.ofDigits]
  | cons d L' ih =>
    intro a
    have hd : d < 10 := h d (List.mem_cons_self d L')
    have hL' : ∀ x ∈ L', x < 10 := fun x hx => h x (List.mem_cons_of_mem d hx)
    simp only [List.reverse_cons, List.map_append, List.map_cons, List.map_nil,
      List.foldl_append, List.foldl_cons, List.foldl_nil, List.length_cons]
    rw [ih hL']
    rw [Nat.ofDigits_cons, digitVal_digitChar d hd]
    ring

theorem foldl_zero_pad : ∀ k : Nat,
    List.foldl (fun acc c => acc * 10 + digitVal c) 0 (List.replicate k '0') = 0 := by
  intro k
  induction k with
  | zero => rfl
  | succ k ih => simpa [List.replicate_succ, digitVal] using ih

theorem decValue_pad5 (n : Nat) : decValue (pad5 n) = n := by
  by_cases h0 : n = 0
  · subst h0
    decide
  · unfold decValue pad5 natToDecimal
    simp only [h0, if_neg, ite_false]
    show List.foldl _ 0 (List.replicate _ '0' ++ ((digitsRev n n).reverse.map Nat.digitChar)) = n
    rw [List.foldl_append, foldl_zero_pad]
    rw [digitsRev_eq_digits n n (Nat.le_refl n)]
    rw [foldl_decimal _ (fun d hd => Nat.digits_lt_base (by omega) hd) 0]
    simp [Nat.ofDigits_digits]

theorem pad5_length (n : Nat) : (pad5 n).length = max 5 (natToDecimal n).length := by
  unfold pad5
  show (List.replicate (5 - (natToDecimal n).length) '0' ++ (natToDecimal n).data).length = _
  rw [List.length_append, List.length_replicate]
  have : (natToDecimal n).length = (natToDecimal n).data.length := rfl
  omega

theorem zipWith_congr {α β γ : Type} {f g : α → β → γ} (l1 : List α) (l2 : List β)
    (h : ∀ a b, f a b = g a b) : List.zipWith f l1 l2 = List.zipWith g l1 l2 := by
  induction l1 generalizing l2 with
  | nil => simp
  | cons a t ih =>
    cases l2 with
    | nil => simp
    | cons b u => simp [List.zipWith_cons_cons, h a b, ih]

theorem iterNext_formula (ps : List String) : ∀ db : DB,
    (iterNext db ps).1
      = List.zipWith (fun p i => p ++ "-" ++ pad5 (db.last_invoice + 1 + i)) ps
          (List.range ps.length)
    ∧ (iterNext db ps).2.last_invoice = db.last_invoice + ps.length := by
  induction ps with
  | nil =>
    intro db
    simp [iterNext]
  | cons p ps ih =>
    intro db
    have hnext : next_invoice_no db p
        = (p ++ "-" ++ pad5 (db.last_invoice + 1), { db with last_invoice := db.last_invoice + 1 }) := rfl
    constructor
    · show (next_invoice_no db p).1 :: (iterNext (next_invoice_no db p).2 ps).1 = _
      rw [hnext]
      rw [(ih _).1]
      rw [List.length_cons, List.range_succ_eq_map, List.zipWith_cons_cons]
      rw [List.zipWith_map_right]
      refine congrArg₂ _ (by rw [Nat.add_zero]) ?_
      refine zipWith_congr ps (List.range ps.length) ?_
      intro a b
      have harith : db.last_invoice + 1 + 1 + b = db.last_invoice + 1 + Nat.succ b := by omega
      simp only [harith]
    · show (iterNext (next_invoice_no db p).2 ps).2.last_invoice = _
      rw [hnext]
      rw [(ih _).2]
      simp only [List.length_cons]
      omega

theorem counter_values_strict_mono (v n : Nat) :
    ((List.range n).map (fun i => v + 1 + i)).Pairwise (· < ·) :=
  List.Pairwise.map _ (fun a b hab => by omega) (List.pairwise_lt_range n)

/-- C2: one call of `next_invoice_no` on counter value v returns the
prefixed suffix for v+1, zero-padded to five digits (wider above 99999),
and persists counter v+1; the padded suffix still denotes v+1
numerically; and N sequential calls with any prefixes return suffixes
for v+1 .. v+N, a strictly increasing (hence distinct) value sequence. -/
theorem next_invoice_no_spec (db : DB) (pfx : String) :
    next_invoice_no db pfx
      = (pfx ++ "-" ++ pad5 (db.last_invoice + 1),
         { db with last_invoice := db.last_invoice + 1 })
    ∧ (∀ n : Nat, decValue (pad5 n) = n ∧ (pad5 n).length = max 5 (natToDecimal n).length)
    ∧ ∀ ps : List String,
        (iterNext db ps).1
          = List.zipWith (fun p i => p ++ "-" ++ pad5 (db.last_invoice + 1 + i)) ps
              (List.range ps.length)
        ∧ (iterNext db ps).2.last_invoice = db.last_invoice + ps.length
        ∧ ((List.range ps.length).map (fun i => db.last_invoice + 1 + i)).Pairwise (· < ·) := by
  refine ⟨rfl, fun n => ⟨decValue_pad5 n, pad5_length n⟩, fun ps => ?_⟩
  rcases iterNext_formula ps db with ⟨h1, h2⟩
  exact ⟨h1, h2, counter_values_strict_mono db.last_invoice ps.length⟩

theorem parseQuoted_nil (acc : List Char) : parseQuoted [] acc = (acc.reverse, []) := rfl

theorem parseQuoted_close_nil (acc : List Char) : parseQuoted ['"'] acc = (acc.reverse, []) := rfl

theorem parseQuoted_dquote (r acc : List Char) :
    parseQuoted ('"' :: '"' :: r) acc = parseQuoted r ('"' :: acc) := by
  simp [parseQuoted]

theorem parseQuoted_close_cons (c : Char) (r acc : List Char) (hc : c ≠ '"') :
    parseQuoted ('"' :: c :: r) acc = (acc.reverse, c :: r) := by
  simp [parseQuoted, hc]

theorem parseQuoted_cons_ne (c : Char) (rest acc : List Char) (hc : c ≠ '"') :
    parseQuoted (c :: rest) acc = parseQuoted rest (c :: acc) := by
  cases rest with
  | nil => simp [parseQuoted, hc]
  | cons c2 r => simp [parseQuoted, hc]

theorem parseQuoted_escape (f : List Char) : ∀ (acc rest : List Char),
    rest.head? ≠ some '"' →
    parseQuoted (escapeQ f ++ '"' :: rest) acc = (acc.reverse ++ f, rest) := by
  induction f with
  | nil =>
    intro acc rest hrest
    cases rest with
    | nil => simp [escapeQ, parseQuoted_close_nil]
    | cons c r =>
      have hc : c ≠ '"' := by
        intro hx
        exact hrest (by rw [hx] ; rfl)
      simp [escapeQ, parseQuoted_close_cons c r acc hc]
  | cons c f' ih =>
    intro acc rest hrest
    by_cases hc : c = '"'
    · subst hc
      have hesc : escapeQ ('"' :: f') = '"' :: '"' :: escapeQ f' := by simp [escapeQ]
      rw [hesc]
      show parseQuoted ('"' :: '"' :: (escapeQ f' ++ '"' :: rest)) acc = _
      rw [parseQuoted_dquote, ih ('"' :: acc) rest hrest]
      simp
    · have hesc : escapeQ (c :: f') = c :: escapeQ f' := by simp [escapeQ, hc]
      rw [hesc]
      show parseQuoted (c :: (escapeQ f' ++ '"' :: rest)) acc = _
      rw [parseQuoted_cons_ne c _ acc hc, ih (c :: acc) rest hrest]
      simp

theorem parseRec_comma (rest acc : List Char) (fields : List String) :
    parseRec (',' :: rest) acc fields
      = parseRec rest [] (String.mk acc.reverse :: fields) := by
  simp [parseRec]

theorem parseRec_crlf (rest acc : List Char) (fields : List String) :
    parseRec ('\r' :: '\n' :: rest) acc fields
      = ((String.mk acc.reverse :: fields).reverse, rest) := by
  simp [parseRec]

theorem parseRec_char (c : Char) (rest acc : List Char) (fields : List String)
    (hc1 : c ≠ ',') (hc2 : ¬(c = '"' ∧ acc = [])) (hc3 : c ≠ '\r') :
    parseRec (c :: rest) acc fields = parseRec rest (c :: acc) fields := by
  simp [parseRec, hc1, hc2, hc3]

theorem parseRec_quoted_comma {rest content r : List Char} (fields : List String)
    (hpq : parseQuoted rest [] = (content, ',' :: r)) :
    parseRec ('"' :: rest) [] fields = parseRec r [] (String.mk content :: fields) := by
  rw [parseRec]
  · rw [if_neg (by decide), if_pos ⟨rfl, rfl⟩]
    split
    next content2 r2 heq =>
      rw [hpq] at heq
      simp only [Prod.mk.injEq, List.cons.injEq] at heq
      obtain ⟨h1, -, h2⟩ := heq
      subst h1
      subst h2
      rfl
    next content2 r2 heq =>
      rw [hpq] at heq
      simp at heq
    next content2 heq =>
      rw [hpq] at heq
      simp at heq
    next content2 r2 hne1 hne2 hne3 heq =>
      rw [hpq] at heq
      simp only [Prod.mk.injEq] at heq
      exact absurd heq.2.symm (hne1 r)
  · intro r2 hshape
    simp at hshape

theorem parseRec_quoted_crlf {rest content r : List Char} (fields : List String)
    (hpq : parseQuoted rest [] = (content, '\r' :: '\n' :: r)) :
    parseRec ('"' :: rest) [] fields = ((String.mk content :: fields).reverse, r) := by
  rw [parseRec]
  · rw [if_neg (by decide), if_pos ⟨rfl, rfl⟩]
    split
    next content2 r2 heq =>
      rw [hpq] at heq
      simp at heq
    next content2 r2 heq =>
      rw [hpq] at heq
      simp only [Prod.mk.injEq, List.cons.injEq] at heq
      obtain ⟨h1, -, -, h2⟩ := heq
      subst h1
      subst h2
      rfl
    next content2 heq =>
      rw [hpq] at heq
      simp at heq
    next content2 r2 hne1 hne2 hne3 heq =>
      rw [hpq] at heq
      simp only [Prod.mk.injEq] at heq
      exact absurd heq.2.symm (hne2 r)
  · intro r2 hshape
    simp at hshape


theorem parseRec_scan (f : List Char)
    (hf : ∀ c ∈ f, ¬(c = ',' ∨ c = '"' ∨ c = '\r' ∨ c = '\n')) :
    ∀ (rest acc : List Char) (fields : List String),
    parseRec (f ++ rest) acc fields = parseRec rest (f.reverse ++ acc) fields := by
  induction f with
  | nil =>
    intro rest acc fields
    simp
  | cons c f' ih =>
    intro rest acc fields
    have hc := hf c (List.mem_cons_self c f')
    push_neg at hc
    obtain ⟨hc1, hc2, hc3, hc4⟩ := hc
    show parseRec (c :: (f' ++ rest)) acc fields = _
    rw [parseRec_char c _ acc fields hc1 (fun hx => hc2 hx.1) hc3]
    rw [ih (fun x hx => hf x (List.mem_cons_of_mem c hx)) rest (c :: acc) fields]
    simp

theorem parseRec_field_comma (f : String) (more : List Char) (fields : List String) :
    parseRec (writeField f ++ ',' :: more) [] fields = parseRec more [] (f :: fields) := by
  unfold writeField
  by_cases hq : needsQuote f
  · rw [if_pos hq]
    show parseRec ('"' :: (escapeQ f.data ++ ['"'] ++ ',' :: more)) [] fields = _
    have hsh : escapeQ f.data ++ ['"'] ++ ',' :: more = escapeQ f.data ++ '"' :: (',' :: more) := by
      simp
    rw [hsh]
    have hpq := parseQuoted_escape f.data [] (',' :: more) (by simp)
    rw [parseRec_quoted_comma fields (by simpa using hpq)]
  · rw [if_neg hq]
    have hchars : ∀ c ∈ f.data, ¬(c = ',' ∨ c = '"' ∨ c = '\r' ∨ c = '\n') := by
      intro c hcm
      have hany : f.data.any (fun c => c == ',' || c == '"' || c == '\r' || c == '\n') = false := by
        revert hq
        unfold needsQuote
        cases f.data.any (fun c => c == ',' || c == '"' || c == '\r' || c == '\n') <;> simp
      have hx := List.any_eq_false.mp hany c hcm
      simp only [Bool.or_eq_true, beq_iff_eq, not_or] at hx
      tauto
    rw [parseRec_scan f.data hchars (',' :: more) [] fields]
    rw [parseRec_comma more (f.data.reverse ++ []) fields]
    have hmk : String.mk ((f.data.reverse ++ []).reverse) = f := by simp
    rw [hmk]

theorem parseRec_field_crlf (f : String) (more : List Char) (fields : List String) :
    parseRec (writeField f ++ '\r' :: '\n' :: more) [] fields
      = ((f :: fields).reverse, more) := by
  unfold writeField
  by_cases hq : needsQuote f
  · rw [if_pos hq]
    show parseRec ('"' :: (escapeQ f.data ++ ['"'] ++ '\r' :: '\n' :: more)) [] fields = _
    have hsh : escapeQ f.data ++ ['"'] ++ '\r' :: '\n' :: more
        = escapeQ f.data ++ '"' :: ('\r' :: '\n' :: more) := by
      simp
    rw [hsh]
    have hpq := parseQuoted_escape f.data [] ('\r' :: '\n' :: more) (by simp)
    rw [parseRec_quoted_crlf fields (by simpa using hpq)]
  · rw [if_neg hq]
    have hchars : ∀ c ∈ f.data, ¬(c = ',' ∨ c = '"' ∨ c = '\r' ∨ c = '\n') := by
      intro c hcm
      have hany : f.data.any (fun c => c == ',' || c == '"' || c == '\r' || c == '\n') = false := by
        revert hq
        unfold needsQuote
        cases f.data.any (fun c => c == ',' || c == '"' || c == '\r' || c == '\n') <;> simp
      have hx := List.any_eq_false.mp hany c hcm
      simp only [Bool.or_eq_true, beq_iff_eq, not_or] at hx
      tauto
    rw [parseRec_scan f.data hchars ('\r' :: '\n' :: more) [] fields]
    rw [parseRec_crlf more (f.data.reverse ++ []) fields]
    have hmk : String.mk ((f.data.reverse ++ []).reverse) = f := by simp
    rw [hmk]

theorem parseRec_row : ∀ (r : List String), r ≠ [] → ∀ (more : List Char) (fields : List String),
    parseRec (writeRow r ++ more) [] fields = (fields.reverse ++ r, more) := by
  intro r
  induction r with
  | nil => intro h ; exact absurd rfl h
  | cons f rs ih =>
    intro _ more fields
    cases rs with
    | nil =>
      show parseRec ((writeField f ++ ['\r', '\n']) ++ more) [] fields = _
      have hsh : (writeField f ++ ['\r', '\n']) ++ more = writeField f ++ '\r' :: '\n' :: more := by
        simp
      rw [hsh, parseRec_field_crlf]
      simp
    | cons f2 rs2 =>
      show parseRec ((writeField f ++ ',' :: writeRow (f2 :: rs2)) ++ more) [] fields = _
      have hsh : (writeField f ++ ',' :: writeRow (f2 :: rs2)) ++ more
          = writeField f ++ ',' :: (writeRow (f2 :: rs2) ++ more) := by
        simp
      rw [hsh, parseRec_field_comma, ih (by simp) more (f :: fields)]
      simp

theorem writeRow_ne_nil (r : List String) : writeRow r ≠ [] := by
  cases r with
  | nil => simp [writeRow]
  | cons f rs =>
    cases rs with
    | nil => simp [writeRow]
    | cons f2 rs2 => simp [writeRow]

theorem rows_le_writeRows : ∀ rows : List (List String), rows.length ≤ (writeRows rows).length := by
  intro rows
  induction rows with
  | nil => simp [writeRows]
  | cons r rs ih =>
    show rs.length + 1 ≤ (writeRow r ++ writeRows rs).length
    have h1 : 1 ≤ (writeRow r).length := by
      have := writeRow_ne_nil r
      cases hw : writeRow r with
      | nil => exact absurd hw this
      | cons a b => simp
    rw [List.length_append]
    omega

theorem parseRecords_write : ∀ (rows : List (List String)) (fuel : Nat),
    (∀ r ∈ rows, r ≠ []) → rows.length ≤ fuel →
    parseRecords fuel (writeRows rows) = rows := by
  intro rows
  induction rows with
  | nil =>
    intro fuel _ _
    cases fuel <;> rfl
  | cons r rs ih =>
    intro fuel hne hlen
    cases fuel with
    | zero => simp at hlen
    | succ fu =>
      have hr : r ≠ [] := hne r (List.mem_cons_self r rs)
      obtain ⟨c, t, hct⟩ := List.exists_cons_of_ne_nil (writeRow_ne_nil r)
      have hpr : parseRec (writeRow r ++ writeRows rs) [] [] = (r, writeRows rs) := by
        rw [parseRec_row r hr (writeRows rs) []]
        rfl
      have hstep : parseRecords (fu + 1) (writeRow r ++ writeRows rs)
          = (parseRec (writeRow r ++ writeRows rs) [] []).1
            :: parseRecords fu (parseRec (writeRow r ++ writeRows rs) [] []).2 := by
        rw [hct]
        rfl
      show parseRecords (fu + 1) (writeRow r ++ writeRows rs) = r :: rs
      rw [hstep, hpr]
      have hlen2 : rs.length ≤ fu := by
        simp only [List.length_cons] at hlen
        omega
      rw [ih fu (fun x hx => hne x (List.mem_cons_of_mem r hx)) hlen2]

/-- C6: `export_csv` (csv-module branch: header row then one quoted row
per record, CRLF-terminated) followed by a re-parse of the produced text
reconstructs every row's fields exactly, embedded newlines, quotes and
commas included. -/
theorem export_csv_roundtrip (rows : List (List String)) (h : ∀ r ∈ rows, r ≠ []) :
    csvParse (export_csv rows) = csvHeaders :: rows := by
  unfold csvParse export_csv
  show parseRecords (writeRows (csvHeaders :: rows)).length (writeRows (csvHeaders :: rows))
    = csvHeaders :: rows
  apply parseRecords_write
  · intro r hr
    rcases List.mem_cons.mp hr with rfl | hm
    · intro hcon
      cases hcon
    · exact h r hm
  · exact rows_le_writeRows _

/-- C6 witness: a concrete full row whose items and notes carry embedded
newlines round-trips exactly. -/
theorem export_csv_roundtrip_witness :
    csvParse (export_csv [["1", "INV-00001", "2024-01-10", "Outward", "Acme",
        "Item A x1 - 100\nItem B x2 - 200", "300.0", "note line 1\nnote line 2"]])
      = csvHeaders :: [["1", "INV-00001", "2024-01-10", "Outward", "Acme",
          "Item A x1 - 100\nItem B x2 - 200", "300.0", "note line 1\nnote line 2"]] :=
  export_csv_roundtrip
    [["1", "INV-00001", "2024-01-10", "Outward", "Acme",
      "Item A x1 - 100\nItem B x2 - 200", "300.0", "note line 1\nnote line 2"]]
    (by decide)

end InvoiceApp
